import Mathlib

/-!
Verification of the CurvRank matching/ranking engine (wbia-tpl-curvrank).

Shallow embedding of the code in `src/ranking.py`, `src/run_luigi.py` and
`src/_plugin_depc.py`.  Pure numeric code becomes Lean functions over lists;
floating-point scores are modelled as an arbitrary linearly ordered type (or
`Int` / `Rat` where concrete arithmetic is needed); file-system artifact
stores become explicit association lists.
-/

namespace CurvRank

/-! ## ranking.py -/

/--
`dtw_alignment_cost` from `src/ranking.py`:

    S = np.zeros((len(query_vectors), len(database_vectors)), dtype=np.float32)
    for i, qcurv in enumerate(query_vectors):
        for j, dcurv in enumerate(database_vectors):
            S[i, j] = simfunc(qcurv, dcurv)
    return S

Every entry of the zero-initialised matrix is overwritten by the nested loops,
so the result is exactly the matrix of pairwise `simfunc` values.  Rows are
indexed by query vectors, columns by database vectors.
-/
def dtw_alignment_cost {α β : Type} (query_vectors database_vectors : List α)
    (simfunc : α → α → β) : List (List β) :=
  query_vectors.map (fun qcurv => database_vectors.map (fun dcurv => simfunc qcurv dcurv))

/-! ## TimeWarpingResults.run (src/run_luigi.py, lines 1581-1584)

    scores[i] = result_matrix.min(axis=None)

`np.ndarray.min(axis=None)` on a non-empty 2-D array is the minimum over all
entries; we model it as `List.min?` over the flattened matrix. -/

/-- Minimum over all entries of a matrix, as `result_matrix.min(axis=None)`
computes it (`none` exactly when the matrix has no entries, where numpy
raises instead). -/
def matrix_min {β : Type} [LinearOrder β] (m : List (List β)) : Option β :=
  m.flatten.min?

/--
Modelled from the spec: `workers.identify_encounter` (the `workers` module is
absent from `src/`) computes, for one query encounter and one database
individual, the pairwise cost matrix `dtw_alignment_cost(query_curvs,
database_curvs, simfunc)` which `TimeWarpingResults.run` later reads back as
`result_dict[dind]` ("Between two *encounters* (each a set of per-image
vectors), the aggregate score is the minimum pairwise cost over the cross
product of the two images sets").
-/
def identify_encounter_matrix {α β : Type} (query_curvs database_curvs : List α)
    (simfunc : α → α → β) : List (List β) :=
  dtw_alignment_cost query_curvs database_curvs simfunc

/-- The aggregate score of one query encounter against one database
individual, exactly as `TimeWarpingResults.run` computes `scores[i]`. -/
def encounter_score {α β : Type} [LinearOrder β] (query_curvs database_curvs : List α)
    (simfunc : α → α → β) : Option β :=
  matrix_min (identify_encounter_matrix query_curvs database_curvs simfunc)

end CurvRank

namespace CurvRank

/-- Helper: membership in the flattened pairwise matrix is exactly a pairwise
`simfunc` value over the cross product. -/
theorem mem_flatten_dtw {α β : Type} (q d : List α) (f : α → α → β) (x : β) :
    x ∈ (dtw_alignment_cost q d f).flatten ↔ ∃ a ∈ q, ∃ b ∈ d, x = f a b := by
  simp only [dtw_alignment_cost, List.mem_flatten, List.mem_map]
  constructor
  · rintro ⟨row, ⟨a, ha, rfl⟩, hx⟩
    rcases List.mem_map.mp hx with ⟨b, hb, rfl⟩
    exact ⟨a, ha, b, hb, rfl⟩
  · rintro ⟨a, ha, b, hb, rfl⟩
    exact ⟨d.map (f a), ⟨a, ha, rfl⟩, List.mem_map.mpr ⟨b, hb, rfl⟩⟩

/-- C10: `dtw_alignment_cost` returns the full pairwise matrix: it has one row
per query vector, each row has one entry per database vector, and the `(i, j)`
entry is `simfunc` of the `i`-th query vector and the `j`-th database vector
(no aggregation is performed). -/
theorem dtw_alignment_cost_shape_entries {α β : Type} (q d : List α) (f : α → α → β)
    (i j : ℕ) (hi : i < q.length) (hj : j < d.length) :
    (dtw_alignment_cost q d f).length = q.length ∧
    (∀ row ∈ dtw_alignment_cost q d f, row.length = d.length) ∧
    ((dtw_alignment_cost q d f).get ⟨i, by simpa [dtw_alignment_cost] using hi⟩).get
      ⟨j, by simpa [dtw_alignment_cost] using hj⟩ =
      f (q.get ⟨i, hi⟩) (d.get ⟨j, hj⟩) := by
  refine ⟨by simp [dtw_alignment_cost], ?_, ?_⟩
  · intro row hrow
    simp only [dtw_alignment_cost, List.mem_map] at hrow
    rcases hrow with ⟨a, _, rfl⟩
    simp
  · simp [dtw_alignment_cost]

/-- Witness for C10 at `q = [10, 20]`, `d = [1, 2, 3]`, `f = (· - ·)`,
`i = 1`, `j = 2`. -/
theorem dtw_alignment_cost_shape_entries_witness :
    (dtw_alignment_cost [(10 : Int), 20] [1, 2, 3] (· - ·)).length = 2 ∧
    (∀ row ∈ dtw_alignment_cost [(10 : Int), 20] [1, 2, 3] (· - ·), row.length = 3) ∧
    ((dtw_alignment_cost [(10 : Int), 20] [1, 2, 3] (· - ·)).get ⟨1, by decide⟩).get
      ⟨2, by decide⟩ = 17 := by
  have h := dtw_alignment_cost_shape_entries [(10 : Int), 20] [1, 2, 3] (· - ·)
    1 2 (by decide) (by decide)
  exact ⟨h.1, h.2.1, h.2.2⟩

/-- C1: for a non-empty query encounter and a non-empty database individual,
the aggregate score used for ranking is the minimum pairwise DTW cost over the
cross product of the two per-image curvature-vector sets: it is attained at
some pair, and it is a lower bound of every pair. -/
theorem encounter_score_is_min_cross_product {α β : Type} [LinearOrder β]
    (q d : List α) (f : α → α → β) (hq : q ≠ []) (hd : d ≠ []) :
    ∃ m, encounter_score q d f = some m ∧
      (∃ a ∈ q, ∃ b ∈ d, m = f a b) ∧
      (∀ a ∈ q, ∀ b ∈ d, m ≤ f a b) := by
  have hne : (dtw_alignment_cost q d f).flatten ≠ [] := by
    rcases List.exists_mem_of_ne_nil q hq with ⟨a, ha⟩
    rcases List.exists_mem_of_ne_nil d hd with ⟨b, hb⟩
    intro hflat
    have : f a b ∈ (dtw_alignment_cost q d f).flatten :=
      (mem_flatten_dtw q d f (f a b)).mpr ⟨a, ha, b, hb, rfl⟩
    simp [hflat] at this
  rcases Option.ne_none_iff_exists'.mp
      (fun h => hne (List.min?_eq_none_iff.mp h)) with ⟨m, hm⟩
  haveI : Std.Antisymm ((· : β) ≤ ·) := ⟨fun h h' => le_antisymm h h'⟩
  have hspec := (List.min?_eq_some_iff le_refl min_choice
    (fun _ _ _ => le_min_iff)).mp hm
  refine ⟨m, ?_, ?_, ?_⟩
  · simpa [encounter_score, identify_encounter_matrix, matrix_min] using hm
  · exact (mem_flatten_dtw q d f m).mp hspec.1
  · intro a ha b hb
    exact hspec.2 (f a b) ((mem_flatten_dtw q d f (f a b)).mpr ⟨a, ha, b, hb, rfl⟩)

/-- Witness for C1 at `q = [0, 4]`, `d = [7, 2]`, `f = (· + ·)` (minimum
pairwise sum is `0 + 2 = 2`). -/
theorem encounter_score_is_min_cross_product_witness :
    ∃ m, encounter_score [(0 : Int), 4] [7, 2] (· + ·) = some m ∧
      (∃ a ∈ [(0 : Int), 4], ∃ b ∈ [(7 : Int), 2], m = a + b) ∧
      (∀ a ∈ [(0 : Int), 4], ∀ b ∈ [(7 : Int), 2], m ≤ a + b) :=
  encounter_score_is_min_cross_product [(0 : Int), 4] [7, 2] (· + ·)
    (by decide) (by decide)

/-! ## Ranking one query encounter (TimeWarpingResults.run, lines 1586-1600)

    asc_scores_idx = np.argsort(scores)
    ranked_indivs = [db_indivs[idx] for idx in asc_scores_idx]
    try:
        rank = 1 + ranked_indivs.index(qind)
        indiv_rank_indices[qind].append(rank)
    except ValueError:
        rank = -1

`np.argsort(scores)` is called with its default sort kind (quicksort /
introsort), whose documented contract guarantees only a permutation of
`[0, n)` along which the scores are non-decreasing; it is NOT a stable sort,
so the order of tied indices is unspecified.  We therefore model the argsort
result relationally. -/

/-- The documented contract of `np.argsort(scores)` under the default
(non-stable) sort kind: the result is a permutation of the index range along
which the scores are non-decreasing. -/
def IsArgsortOf (perm : List ℕ) (scores : List Int) : Prop :=
  List.Perm perm (List.range scores.length) ∧
  perm.Pairwise (fun i j => scores.getD i 0 ≤ scores.getD j 0)

/-- `ranked_indivs = [db_indivs[idx] for idx in asc_scores_idx]`. -/
def ranked_individuals (db_indivs : List String) (perm : List ℕ) : List String :=
  perm.map (fun idx => db_indivs.getD idx "")

/-- The 1-based rank of the true individual: `1 + ranked_indivs.index(qind)`
when `list.index` succeeds, and the sentinel `-1` when it raises `ValueError`
(i.e. exactly when `qind` is not in the ranked list). -/
def rank_of_truth (ranked : List String) (qind : String) : Int :=
  if qind ∈ ranked then 1 + (ranked.indexOf qind : Int) else -1

/-- Helper: mapping `db_indivs[·]` over the full index range gives back the
list itself. -/
theorem map_getD_range (db : List String) :
    (List.range db.length).map (fun i => db.getD i "") = db := by
  induction db with
  | nil => simp
  | cons a tl ih =>
    rw [List.length_cons, List.range_succ_eq_map, List.map_cons, List.map_map]
    have hcong : (List.range tl.length).map ((fun i => (a :: tl).getD i "") ∘ Nat.succ)
        = (List.range tl.length).map (fun i => tl.getD i "") :=
      List.map_congr_left (fun i _ => by simp [Function.comp, List.getD_cons_succ])
    rw [hcong, ih]
    simp

/-- C3 (amended): the ranked candidate list is a permutation of the database
identities along which the scores are non-decreasing (ascending cost order).
The relative order of identities with equal scores is NOT guaranteed to be
the input order, because `np.argsort`'s default sort kind is not stable (see
the counterexample). -/
theorem ranked_list_ascending_by_score (db_indivs : List String) (scores : List Int)
    (perm : List ℕ) (hlen : scores.length = db_indivs.length)
    (hperm : IsArgsortOf perm scores) :
    List.Perm (ranked_individuals db_indivs perm) db_indivs ∧
    (perm.map (fun i => scores.getD i 0)).Pairwise (· ≤ ·) := by
  constructor
  · have hmap := List.Perm.map (fun i => db_indivs.getD i "") hperm.1
    rw [hlen] at hmap
    rw [map_getD_range] at hmap
    exact hmap
  · exact List.Pairwise.map _ (fun a b h => h) hperm.2

/-- Witness for C3's amended theorem at `db = ["a", "b"]`, `scores = [5, 3]`,
`perm = [1, 0]`. -/
theorem ranked_list_ascending_by_score_witness :
    List.Perm (ranked_individuals ["a", "b"] [1, 0]) ["a", "b"] ∧
    (([1, 0] : List ℕ).map (fun i => ([(5 : Int), 3]).getD i 0)).Pairwise (· ≤ ·) :=
  ranked_list_ascending_by_score ["a", "b"] [5, 3] [1, 0] (by decide)
    ⟨by decide, by decide⟩

/-- Counterexample for C3 as stated: on tied scores `[5, 5]` the permutation
`[1, 0]` satisfies the documented `np.argsort` contract, yet the resulting
ranked list reverses the input order of the two equal-score identities, so a
stable tie-break is not guaranteed by the code. -/
theorem ranked_tie_break_not_stable :
    IsArgsortOf [1, 0] [5, 5] ∧
    ranked_individuals ["a", "b"] [1, 0] = ["b", "a"] ∧
    (["b", "a"] : List String) ≠ ["a", "b"] :=
  ⟨⟨by decide, by decide⟩, rfl, by decide⟩

/-- C4: the reported rank of the true identity is either the sentinel `-1`
(true identity absent from the database) or an integer in
`[1, number of database individuals]`. -/
theorem rank_of_truth_sentinel_or_bounded (db_indivs : List String) (scores : List Int)
    (perm : List ℕ) (qind : String) (hlen : scores.length = db_indivs.length)
    (hperm : IsArgsortOf perm scores) :
    rank_of_truth (ranked_individuals db_indivs perm) qind = -1 ∨
    (1 ≤ rank_of_truth (ranked_individuals db_indivs perm) qind ∧
     rank_of_truth (ranked_individuals db_indivs perm) qind ≤ (db_indivs.length : Int)) := by
  set ranked := ranked_individuals db_indivs perm with hranked
  have hlen2 : ranked.length = db_indivs.length := by
    rw [hranked, ranked_individuals, List.length_map,
      List.Perm.length_eq hperm.1, List.length_range, hlen]
  by_cases hmem : qind ∈ ranked
  · right
    have hidx : ranked.indexOf qind < ranked.length := List.indexOf_lt_length.mpr hmem
    rw [rank_of_truth, if_pos hmem]
    constructor
    · omega
    · rw [← hlen2]
      have : (ranked.indexOf qind : Int) < (ranked.length : Int) := by
        exact_mod_cast hidx
      omega
  · left
    rw [rank_of_truth, if_neg hmem]

/-- Witness for C4 at `db = ["a", "b"]`, `scores = [3, 2]`, `perm = [1, 0]`,
`qind = "a"` (rank 2). -/
theorem rank_of_truth_sentinel_or_bounded_witness :
    rank_of_truth (ranked_individuals ["a", "b"] [1, 0]) "a" = -1 ∨
    (1 ≤ rank_of_truth (ranked_individuals ["a", "b"] [1, 0]) "a" ∧
     rank_of_truth (ranked_individuals ["a", "b"] [1, 0]) "a" ≤ ((["a", "b"] : List String).length : Int)) :=
  rank_of_truth_sentinel_or_bounded ["a", "b"] [3, 2] [1, 0] "a" (by decide)
    ⟨by decide, by decide⟩

/-! ## Aggregation across queries (TimeWarpingResults.run, lines 1590-1628)

    indiv_rank_indices = defaultdict(list)
    ...
    indiv_rank_indices[qind].append(rank)        # only in the try branch
    ...
    for qind in indiv_rank_indices.keys():
        mrr = np.mean(1. / np.array(indiv_rank_indices[qind]))
    ...
    rank_indices = [r for ind in indiv_rank_indices for r in indiv_rank_indices[ind]]
    num_queries = rank_indices.shape[0]
    num_indivs = len(indiv_rank_indices)
    for k in range(1, 1 + num_indivs):
        topk = (100. / num_queries) * (rank_indices <= k).sum()

The per-individual rank store is modelled as an association list in first-
insertion order; floating-point means and percentages are modelled in `Rat`.
-/

/-- `indiv_rank_indices[qind].append(r)`: append `r` to `qind`'s bucket,
creating the bucket if `qind` has none yet. -/
def add_rank (acc : List (String × List Int)) (qind : String) (r : Int) :
    List (String × List Int) :=
  match acc with
  | [] => [(qind, [r])]
  | (k, rs) :: rest =>
      if k = qind then (k, rs ++ [r]) :: rest else (k, rs) :: add_rank rest qind r

/-- The `indiv_rank_indices` store after the per-query loop: each query result
`(qind, rank)` appends `rank` to `qind`'s bucket, except that the `except
ValueError` branch (`rank = -1`) appends nothing. -/
def accumulate_ranks (results : List (String × Int)) : List (String × List Int) :=
  results.foldl (fun acc p => if p.2 = -1 then acc else add_rank acc p.1 p.2) []

/-- The mean-reciprocal-rank report (`<dataset>_mrr.csv`): one row per key of
`indiv_rank_indices`, with `np.mean(1. / ranks)`. -/
def mrr_report (acc : List (String × List Int)) : List (String × Rat) :=
  acc.map (fun p =>
    (p.1, (p.2.map (fun r : Int => (1 : Rat) / (r : Rat))).sum / (p.2.length : Rat)))

/-- `rank_indices`: all recorded ranks, flattened in store order. -/
def rank_indices (acc : List (String × List Int)) : List Int :=
  (acc.map Prod.snd).flatten

/-- The top-k table (`<dataset>_topk.csv`): for each `k` in
`range(1, 1 + num_indivs)`, `(100. / num_queries) * (rank_indices <= k).sum()`. -/
def topk_table (acc : List (String × List Int)) : List (ℕ × Rat) :=
  (List.range' 1 acc.length).map
    (fun k => (k, (100 / ((rank_indices acc).length : Rat)) *
      (((rank_indices acc).filter (fun r => r ≤ (k : Int))).length : Rat)))

/-- Helper: `add_rank` adds exactly one copy of `r` to the flattened rank
multiset. -/
theorem rank_indices_add_rank (acc : List (String × List Int)) (q : String) (r : Int) :
    List.Perm (rank_indices (add_rank acc q r)) (rank_indices acc ++ [r]) := by
  induction acc with
  | nil => simp [add_rank, rank_indices]
  | cons p rest ih =>
    obtain ⟨k, rs⟩ := p
    by_cases hk : k = q
    · simp only [add_rank, if_pos hk, rank_indices, List.map_cons, List.flatten_cons]
      rw [List.append_assoc, List.append_assoc]
      exact List.Perm.append_left rs (List.perm_append_comm)
    · simp only [add_rank, if_neg hk, rank_indices, List.map_cons, List.flatten_cons]
      rw [List.append_assoc]
      exact List.Perm.append_left rs ih

/-- Helper: the flattened rank multiset of the accumulated store is exactly
the multiset of successful (non-`-1`) ranks. -/
theorem rank_indices_accumulate_aux (results : List (String × Int)) :
    ∀ acc : List (String × List Int),
      List.Perm
        (rank_indices (results.foldl
          (fun acc p => if p.2 = -1 then acc else add_rank acc p.1 p.2) acc))
        (rank_indices acc ++ (results.filter (fun p => p.2 ≠ -1)).map Prod.snd) := by
  induction results with
  | nil => intro acc; simp
  | cons p rest ih =>
    intro acc
    by_cases hp : p.2 = -1
    · simpa [List.foldl_cons, hp, List.filter_cons] using ih acc
    · simp only [List.foldl_cons, if_neg hp]
      refine (ih (add_rank acc p.1 p.2)).trans ?_
      have h1 := rank_indices_add_rank acc p.1 p.2
      refine (List.Perm.append_right _ h1).trans ?_
      rw [List.append_assoc]
      have : (List.filter (fun p => p.2 ≠ -1) (p :: rest)).map Prod.snd
          = p.2 :: (rest.filter (fun p => p.2 ≠ -1)).map Prod.snd := by
        simp [List.filter_cons, hp]
      rw [this]
      simp

/-- The flattened-rank multiset over all of `accumulate_ranks`. -/
theorem rank_indices_accumulate (results : List (String × Int)) :
    List.Perm (rank_indices (accumulate_ranks results))
      ((results.filter (fun p => p.2 ≠ -1)).map Prod.snd) := by
  simpa [rank_indices] using rank_indices_accumulate_aux results []

/-- Bucket lookup in the association-list store. -/
def assocGet (acc : List (String × List Int)) (q : String) : List Int :=
  match acc with
  | [] => []
  | (k, rs) :: rest => if k = q then rs else assocGet rest q

/-- Helper: effect of `add_rank` on one bucket. -/
theorem assocGet_add_rank (acc : List (String × List Int)) (q' : String) (r : Int)
    (q : String) :
    assocGet (add_rank acc q' r) q =
      if q = q' then assocGet acc q ++ [r] else assocGet acc q := by
  induction acc with
  | nil =>
    by_cases h : q = q'
    · simp [add_rank, assocGet, h]
    · have h' : ¬ q' = q := fun hh => h hh.symm
      simp [add_rank, assocGet, h, h']
  | cons p rest ih =>
    obtain ⟨k, rs⟩ := p
    by_cases hk : k = q'
    · subst hk
      by_cases hq : k = q
      · subst hq
        simp [add_rank, assocGet]
      · have : ¬ q = k := fun hh => hq hh.symm
        simp [add_rank, assocGet, hq, this]
    · by_cases hq : k = q
      · subst hq
        have : ¬ k = q' := hk
        simp [add_rank, assocGet, this]
      · simp [add_rank, assocGet, hk, hq, ih]

/-- Helper: each bucket of the accumulated store holds exactly that
individual's successful ranks, in query order. -/
theorem assocGet_accumulate_aux (results : List (String × Int)) (q : String) :
    ∀ acc : List (String × List Int),
      assocGet (results.foldl
          (fun acc p => if p.2 = -1 then acc else add_rank acc p.1 p.2) acc) q =
        assocGet acc q ++
          (results.filter (fun p => p.1 = q ∧ p.2 ≠ -1)).map Prod.snd := by
  induction results with
  | nil => intro acc; simp
  | cons p rest ih =>
    intro acc
    by_cases hp : p.2 = -1
    · simpa [List.foldl_cons, hp, List.filter_cons] using ih acc
    · simp only [List.foldl_cons, if_neg hp]
      rw [ih (add_rank acc p.1 p.2), assocGet_add_rank]
      by_cases hq : q = p.1
      · have : (List.filter (fun p => p.1 = q ∧ p.2 ≠ -1) (p :: rest)).map Prod.snd
            = p.2 :: (rest.filter (fun p => p.1 = q ∧ p.2 ≠ -1)).map Prod.snd := by
          simp [List.filter_cons, hp, hq.symm]
        rw [this, if_pos hq, List.append_assoc]
        simp
      · have : (List.filter (fun p => p.1 = q ∧ p.2 ≠ -1) (p :: rest)).map Prod.snd
            = (rest.filter (fun p => p.1 = q ∧ p.2 ≠ -1)).map Prod.snd := by
          have : ¬ p.1 = q := fun hh => hq hh.symm
          simp [List.filter_cons, this]
        rw [this, if_neg hq]

/-- Bucket contents of `accumulate_ranks`. -/
theorem assocGet_accumulate (results : List (String × Int)) (q : String) :
    assocGet (accumulate_ranks results) q =
      (results.filter (fun p => p.1 = q ∧ p.2 ≠ -1)).map Prod.snd := by
  simpa [assocGet] using assocGet_accumulate_aux results q []

/-- Helper: `add_rank` either keeps the key list or appends the new key at
the end. -/
theorem keys_add_rank (acc : List (String × List Int)) (q : String) (r : Int) :
    (add_rank acc q r).map Prod.fst =
      if q ∈ acc.map Prod.fst then acc.map Prod.fst else acc.map Prod.fst ++ [q] := by
  induction acc with
  | nil => simp [add_rank]
  | cons p rest ih =>
    obtain ⟨k, rs⟩ := p
    by_cases hk : k = q
    · simp [add_rank, hk]
    · have hq : ¬ q = k := fun hh => hk hh.symm
      by_cases hmem : q ∈ rest.map Prod.fst
      · simp [add_rank, hk, ih, hmem, hq]
      · simp [add_rank, hk, ih, hmem, hq]

/-- Helper: `add_rank` preserves duplicate-free keys. -/
theorem nodup_keys_add_rank (acc : List (String × List Int)) (q : String) (r : Int)
    (h : (acc.map Prod.fst).Nodup) : ((add_rank acc q r).map Prod.fst).Nodup := by
  rw [keys_add_rank]
  by_cases hmem : q ∈ acc.map Prod.fst
  · simpa [hmem] using h
  · rw [if_neg hmem]
    exact List.Nodup.append h (List.nodup_singleton q)
      (List.disjoint_singleton.mpr hmem)

/-- Helper: `add_rank` preserves bucket non-emptiness. -/
theorem buckets_nonempty_add_rank (acc : List (String × List Int)) (q : String) (r : Int)
    (h : ∀ p ∈ acc, p.2 ≠ []) : ∀ p ∈ add_rank acc q r, p.2 ≠ [] := by
  induction acc with
  | nil =>
    intro p hp
    simp only [add_rank, List.mem_singleton] at hp
    subst hp
    simp
  | cons hd rest ih =>
    obtain ⟨k, rs⟩ := hd
    intro p hp
    by_cases hk : k = q
    · simp only [add_rank, if_pos hk, List.mem_cons] at hp
      rcases hp with rfl | hp
      · simp
      · exact h p (List.mem_cons_of_mem _ hp)
    · simp only [add_rank, if_neg hk, List.mem_cons] at hp
      rcases hp with rfl | hp
      · exact h (k, rs) (List.mem_cons_self _ _)
      · exact ih (fun p hp => h p (List.mem_cons_of_mem _ hp)) p hp

/-- The accumulated store has duplicate-free keys and non-empty buckets. -/
theorem accumulate_invariant (results : List (String × Int)) :
    ((accumulate_ranks results).map Prod.fst).Nodup ∧
    (∀ p ∈ accumulate_ranks results, p.2 ≠ []) := by
  suffices h : ∀ acc : List (String × List Int),
      (acc.map Prod.fst).Nodup → (∀ p ∈ acc, p.2 ≠ []) →
      ((results.foldl
          (fun acc p => if p.2 = -1 then acc else add_rank acc p.1 p.2) acc).map
          Prod.fst).Nodup ∧
      (∀ p ∈ results.foldl
          (fun acc p => if p.2 = -1 then acc else add_rank acc p.1 p.2) acc, p.2 ≠ []) by
    exact h [] (by simp) (by simp)
  induction results with
  | nil => intro acc h1 h2; exact ⟨h1, h2⟩
  | cons p rest ih =>
    intro acc h1 h2
    by_cases hp : p.2 = -1
    · simpa [List.foldl_cons, hp] using ih acc h1 h2
    · simp only [List.foldl_cons, if_neg hp]
      exact ih (add_rank acc p.1 p.2) (nodup_keys_add_rank acc p.1 p.2 h1)
        (buckets_nonempty_add_rank acc p.1 p.2 h2)

/-- Helper: with non-empty buckets, key membership coincides with a non-empty
lookup. -/
theorem mem_keys_iff_assocGet_ne_nil (acc : List (String × List Int)) (q : String)
    (h : ∀ p ∈ acc, p.2 ≠ []) :
    q ∈ acc.map Prod.fst ↔ assocGet acc q ≠ [] := by
  induction acc with
  | nil => simp [assocGet]
  | cons p rest ih =>
    obtain ⟨k, rs⟩ := p
    by_cases hk : k = q
    · subst hk
      simp only [assocGet, if_pos rfl, List.map_cons, List.mem_cons]
      exact ⟨fun _ => h (k, rs) (List.mem_cons_self _ _),
        fun _ => Or.inl trivial⟩
    · have hq : ¬ q = k := fun hh => hk hh.symm
      simp only [assocGet, if_neg hk, List.map_cons, List.mem_cons]
      rw [ih (fun p hp => h p (List.mem_cons_of_mem _ hp))]
      exact ⟨fun hor => hor.resolve_left hq, Or.inr⟩

/-- Helper: with duplicate-free keys, the lookup returns the stored bucket. -/
theorem assocGet_eq_of_mem (acc : List (String × List Int)) (q : String)
    (rs : List Int) (hnodup : (acc.map Prod.fst).Nodup) (hmem : (q, rs) ∈ acc) :
    assocGet acc q = rs := by
  induction acc with
  | nil => simp at hmem
  | cons p rest ih =>
    obtain ⟨k, bs⟩ := p
    rcases List.mem_cons.mp hmem with heq | hmem'
    · obtain ⟨rfl, rfl⟩ := Prod.mk.injEq .. ▸ heq
      injection heq with h1 h2
      simp [assocGet]
    · by_cases hk : k = q
      · exfalso
        subst hk
        have : k ∈ rest.map Prod.fst :=
          List.mem_map.mpr ⟨(k, rs), hmem', rfl⟩
        exact (List.nodup_cons.mp (by simpa using hnodup)).1 this
      · simp only [assocGet, if_neg hk]
        exact ih (List.nodup_cons.mp (by simpa using hnodup)).2 hmem'

/-- Keys of the accumulated store are exactly the query individuals with at
least one successful (non-`-1`) rank. -/
theorem mem_keys_accumulate (results : List (String × Int)) (q : String) :
    q ∈ (accumulate_ranks results).map Prod.fst ↔
      ∃ r, (q, r) ∈ results ∧ r ≠ -1 := by
  rw [mem_keys_iff_assocGet_ne_nil _ _ (accumulate_invariant results).2,
    assocGet_accumulate]
  constructor
  · intro hne
    rcases List.exists_mem_of_ne_nil _ hne with ⟨x, hx⟩
    rcases List.mem_map.mp hx with ⟨p, hp, rfl⟩
    have hfilt := List.of_mem_filter hp
    have hpq : p.1 = q ∧ p.2 ≠ -1 := by simpa using hfilt
    exact ⟨p.2, by rw [← hpq.1]; exact ⟨List.mem_of_mem_filter hp, hpq.2⟩⟩
  · rintro ⟨r, hr, hrne⟩
    intro hnil
    have : (q, r) ∈ results.filter (fun p => p.1 = q ∧ p.2 ≠ -1) :=
      List.mem_filter.mpr ⟨hr, by simpa using hrne⟩
    have hr2 : r ∈ (results.filter (fun p => p.1 = q ∧ p.2 ≠ -1)).map Prod.snd :=
      List.mem_map.mpr ⟨(q, r), this, rfl⟩
    rw [hnil] at hr2
    exact absurd hr2 (List.not_mem_nil r)

/-- C7: every row of the mean-reciprocal-rank report belongs to an identity
with at least one successfully ranked query, and its value is the mean of
`1/rank` over exactly that identity's successful ranks; an identity with zero
successful queries has no row at all. -/
theorem mrr_entry_mean_over_successful (results : List (String × Int)) (q : String)
    (v : Rat) (hmem : (q, v) ∈ mrr_report (accumulate_ranks results)) :
    (results.filter (fun p => p.1 = q ∧ p.2 ≠ -1)).map Prod.snd ≠ [] ∧
    v = (((results.filter (fun p => p.1 = q ∧ p.2 ≠ -1)).map Prod.snd).map
          (fun r : Int => (1 : Rat) / (r : Rat))).sum /
        ((((results.filter (fun p => p.1 = q ∧ p.2 ≠ -1)).map Prod.snd).length : Rat)) := by
  rcases List.mem_map.mp hmem with ⟨p, hp, heq⟩
  injection heq with h1 h2
  subst h1
  have hbucket : assocGet (accumulate_ranks results) p.1 = p.2 :=
    assocGet_eq_of_mem _ _ _ (accumulate_invariant results).1
      (by rcases p with ⟨a, b⟩; exact hp)
  rw [assocGet_accumulate] at hbucket
  rw [hbucket]
  exact ⟨(accumulate_invariant results).2 p hp, h2.symm⟩

/-- Witness for C7 at `results = [("a", 2)]` (single successful query with
rank 2, mean reciprocal rank `1/2`). -/
theorem mrr_entry_mean_over_successful_witness :
    (([("a", (2 : Int))]).filter (fun p => p.1 = "a" ∧ p.2 ≠ -1)).map Prod.snd ≠ [] ∧
    ((1 : Rat) / 2) =
      (((([("a", (2 : Int))]).filter (fun p => p.1 = "a" ∧ p.2 ≠ -1)).map Prod.snd).map
          (fun r : Int => (1 : Rat) / (r : Rat))).sum /
        (((([("a", (2 : Int))]).filter
            (fun p => p.1 = "a" ∧ p.2 ≠ -1)).map Prod.snd).length : Rat) :=
  mrr_entry_mean_over_successful [("a", 2)] "a" ((1 : Rat) / 2)
    (by norm_num [mrr_report, accumulate_ranks, add_rank])

/-- C2 (amended): the top-k table has one row for every `k` from 1 up to the
number of query individuals with at least one successfully ranked query (the
keys of `indiv_rank_indices`, which are duplicate-free and are exactly the
individuals owning a non-`-1` rank), and each row's accuracy value is
`100 * |{successful queries with rank <= k}| / |successful queries|`;
queries whose rank is the `-1` sentinel are excluded from both numerator and
denominator, and `k` does NOT range up to the number of database identities. -/
theorem topk_range_and_accuracy (results : List (String × Int)) :
    ((topk_table (accumulate_ranks results)).map Prod.fst =
        List.range' 1 (accumulate_ranks results).length) ∧
    (∀ q, q ∈ (accumulate_ranks results).map Prod.fst ↔
        ∃ r, (q, r) ∈ results ∧ r ≠ -1) ∧
    ((accumulate_ranks results).map Prod.fst).Nodup ∧
    (∀ kv ∈ topk_table (accumulate_ranks results),
        kv.2 = (100 / ((results.filter (fun p => p.2 ≠ -1)).length : Rat)) *
          ((results.filter (fun p => p.2 ≠ -1 ∧ p.2 ≤ (kv.1 : Int))).length : Rat)) := by
  refine ⟨?_, fun q => mem_keys_accumulate results q, (accumulate_invariant results).1, ?_⟩
  · rw [topk_table, List.map_map]
    exact List.map_id _
  · intro kv hkv
    rcases List.mem_map.mp hkv with ⟨k, _, rfl⟩
    have hperm := rank_indices_accumulate results
    have hlen : (rank_indices (accumulate_ranks results)).length =
        (results.filter (fun p => p.2 ≠ -1)).length := by
      rw [List.Perm.length_eq hperm, List.length_map]
    have hfperm := List.Perm.filter (fun r => r ≤ (k : Int)) hperm
    have hflen : ((rank_indices (accumulate_ranks results)).filter
          (fun r => r ≤ (k : Int))).length =
        (results.filter (fun p => p.2 ≠ -1 ∧ p.2 ≤ (k : Int))).length := by
      rw [List.Perm.length_eq hfperm]
      rw [List.filter_map, List.length_map]
      rw [List.filter_filter]
      congr 1
      apply List.filter_congr
      intro p _
      simp [Function.comp, and_comm]
    simp only [hlen, hflen]

/-- Counterexample for C2 as stated: a database of three identities with a
single query encounter (true identity "a", ranked first).  The top-k table
then contains only `k = 1` (the number of successfully ranked query
individuals), not `k = 1, 2, 3` up to the number of reference identities. -/
theorem topk_range_not_database_size :
    IsArgsortOf [0, 1, 2] [0, 5, 7] ∧
    rank_of_truth (ranked_individuals ["a", "b", "c"] [0, 1, 2]) "a" = 1 ∧
    (topk_table (accumulate_ranks
        [("a", rank_of_truth (ranked_individuals ["a", "b", "c"] [0, 1, 2]) "a")])).map
        Prod.fst = [1] ∧
    ([1] : List ℕ) ≠ List.range' 1 (["a", "b", "c"] : List String).length := by
  have hrank : rank_of_truth (ranked_individuals ["a", "b", "c"] [0, 1, 2]) "a" = 1 := by
    decide
  refine ⟨⟨by decide, by decide⟩, hrank, ?_, by decide⟩
  rw [hrank]
  simp [topk_table, accumulate_ranks, add_rank]

/-! ## Failure-sentinel propagation (C5)

`SeparateDatabaseQueries.run` (src/run_luigi.py, lines 876-890):

    with open(trailing_edge_target.path, 'rb') as f:
        trailing_edge = pickle.load(f)
    # no trailing edge could be extracted for this image
    if trailing_edge is None:
        continue
    else:
        fname = splitext(basename(fpath))[0]
        fname_trailing_edge_dict[fname] = fpath

and `ibeis_plugin_curvrank_trailing_edges_depc` (src/_plugin_depc.py, lines
546-558), which forwards the per-item `success` flags together with the
outline artifacts into the trailing-edge computation and yields its
`(success, trailing_edge)` rows. -/

/--
Modelled from the spec: `ibs.ibeis_plugin_curvrank_trailing_edges` lives in
`_plugin.py`, which is absent from `src/`; per the spec, for an item whose
upstream success flag is `False` (or whose upstream artifact is absent) the
stage "must short-circuit to `False` without computing" and "emit `False`
rather than attempt computation on missing data".  The per-item computation
is therefore a parameter `compute` that is consulted only on rows whose flag
is `True` and whose artifact is present.
-/
def curvrank_trailing_edges {O T : Type} (compute : O → Bool × Option T)
    (rows : List (Bool × Option O)) : List (Bool × Option T) :=
  rows.map (fun row =>
    if row.1 then
      match row.2 with
      | some outline => compute outline
      | none => (false, none)
    else (false, none))

/-- The depc wrapper of src/_plugin_depc.py lines 546-558: read the per-item
success flags and outlines from the upstream table, run the trailing-edge
computation on the zipped rows, and yield its rows unchanged. -/
def trailing_edges_depc {O T : Type} (compute : O → Bool × Option T)
    (success_list : List Bool) (outlines : List (Option O)) : List (Bool × Option T) :=
  curvrank_trailing_edges compute (success_list.zip outlines)

/-- The trailing-edge collection loop of `SeparateDatabaseQueries.run`: items
whose stored trailing-edge artifact is the absent value are skipped (the
`continue` branch); items with a trailing edge are kept. -/
def collect_trailing_edges {T : Type} (items : List (String × Option T)) :
    List (String × T) :=
  items.foldr (fun item acc =>
    match item.2 with
    | none => acc
    | some t => (item.1, t) :: acc) []

/-- C5: an item whose upstream success flag is `False` is short-circuited to
the `(False, None)` sentinel by the trailing-edge stage — for EVERY possible
per-item computation, so the computation is never consulted on it and no
exception can arise from the missing data — and the database/query collection
step only ever touches items whose trailing-edge artifact is present (an
absent artifact is skipped, not an error). -/
theorem failure_sentinel_short_circuits {O T T' : Type}
    (compute : O → Bool × Option T) (rows : List (Bool × Option O))
    (items : List (String × Option T')) (i : ℕ) (hi : i < rows.length)
    (hfail : (rows.getD i (true, none)).1 = false) :
    (curvrank_trailing_edges compute rows).getD i (true, none) = (false, none) ∧
    (∀ f t, (f, t) ∈ collect_trailing_edges items → (f, some t) ∈ items) := by
  constructor
  · have hi' : i < (curvrank_trailing_edges compute rows).length := by
      simpa [curvrank_trailing_edges] using hi
    rw [List.getD_eq_getElem _ _ hi', List.getD_eq_getElem _ _ hi] at *
    simp only [curvrank_trailing_edges, List.getElem_map]
    rw [hfail]
    simp
  · intro f t hmem
    induction items with
    | nil => simp [collect_trailing_edges] at hmem
    | cons item rest ih =>
      obtain ⟨g, o⟩ := item
      cases o with
      | none =>
        simp only [collect_trailing_edges, List.foldr_cons] at hmem
        exact List.mem_cons_of_mem _ (ih hmem)
      | some t' =>
        simp only [collect_trailing_edges, List.foldr_cons] at hmem
        rcases List.mem_cons.mp hmem with heq | hmem'
        · injection heq with h1 h2
          subst h1; subst h2
          exact List.mem_cons_self _ _
        · exact List.mem_cons_of_mem _ (ih hmem')

/-- Witness for C5: a single item with flag `False` (despite a present
outline) maps to `(False, None)`, and collection over `[("x", None),
("y", Some 3)]` only keeps the present item. -/
theorem failure_sentinel_short_circuits_witness :
    (curvrank_trailing_edges (fun o : Int => (true, some o)) [(false, some 0)]).getD 0
      (true, none) = (false, none) ∧
    (∀ f t, (f, t) ∈ collect_trailing_edges [("x", (none : Option Int)), ("y", some 3)] →
      (f, some t) ∈ [("x", (none : Option Int)), ("y", some 3)]) :=
  failure_sentinel_short_circuits (fun o : Int => (true, some o)) [(false, some 0)]
    [("x", (none : Option Int)), ("y", some 3)] 0 (by decide) rfl

/-! ## Multi-scale completeness check (C6)

`BlockCurvature.get_incomplete` (src/run_luigi.py, lines 748-779):

    if target.exists():
        with target.open('r') as h5f:
            scales_computed = h5f.keys()
        scales_to_compute = []
        for scale in self.curv_scales:
            # only compute the missing scales
            if '%.3f' % scale not in scales_computed:
                scales_to_compute.append(scale)
        if scales_to_compute:
            to_process.append((fpath, tuple(scales_to_compute)))
    else:
        to_process.append((fpath, tuple(self.curv_scales)))

and `BlockCurvature.run` (lines 798-822) maps the compute worker over exactly
`get_incomplete()`; `complete()` is `not bool(get_incomplete())`.  A scale
value is compared with the store's keys through its `'%.3f'` string form,
modelled by an abstract formatting function `fmt`. -/

/-- The inner loop collecting the configured scales missing from the item's
artifact store. -/
def scales_to_compute {α : Type} (fmt : α → String) (curv_scales : List α)
    (scales_computed : List String) : List α :=
  curv_scales.filter (fun s => ¬ fmt s ∈ scales_computed)

/-- One item's treatment in `get_incomplete`: `none` for the artifact store
means the hdf5 file does not exist; `some keys` means it exists with those
scale keys.  The result is `none` when nothing needs recomputation, otherwise
`some` the scales to compute. -/
def incomplete_item {α : Type} (fmt : α → String) (curv_scales : List α)
    (store : Option (List String)) : Option (List α) :=
  match store with
  | some scales_computed =>
      let missing := scales_to_compute fmt curv_scales scales_computed
      if missing.isEmpty then none else some missing
  | none => some curv_scales

/-- `get_incomplete` over the item universe: the artifact-store state of item
`fpath` is `store` paired with it. -/
def block_curvature_incomplete {α : Type} (fmt : α → String) (curv_scales : List α)
    (store : List (String × Option (List String))) : List (String × List α) :=
  store.filterMap (fun item =>
    (incomplete_item fmt curv_scales item.2).map (fun m => (item.1, m)))

/-- `BlockCurvature.run`: the compute worker is mapped over exactly
`get_incomplete()`. -/
def block_curvature_run {α γ : Type} (compute : String × List α → γ)
    (fmt : α → String) (curv_scales : List α)
    (store : List (String × Option (List String))) : List γ :=
  (block_curvature_incomplete fmt curv_scales store).map compute

/-- C6: for a multi-scale item whose artifact store exists, partial presence
schedules exactly the missing scales (not the whole configured scale list),
full presence schedules nothing; and when every item of the universe has all
configured scales present, `get_incomplete` is empty (the stage is complete)
and the compute worker is never invoked, whatever it is. -/
theorem multiscale_completeness {α γ : Type} (fmt : α → String) (curv_scales : List α)
    (computed : List String) (store : List (String × Option (List String)))
    (hmiss : ∃ s ∈ curv_scales, ¬ fmt s ∈ computed)
    (hall : ∀ item ∈ store, ∃ cs, item.2 = some cs ∧ ∀ s ∈ curv_scales, fmt s ∈ cs) :
    incomplete_item fmt curv_scales (some computed) =
      some (curv_scales.filter (fun s => ¬ fmt s ∈ computed)) ∧
    (∀ cs, (∀ s ∈ curv_scales, fmt s ∈ cs) →
      incomplete_item fmt curv_scales (some cs) = none) ∧
    block_curvature_incomplete fmt curv_scales store = [] ∧
    (∀ compute : String × List α → γ,
      block_curvature_run compute fmt curv_scales store = []) := by
  have hnone : ∀ cs, (∀ s ∈ curv_scales, fmt s ∈ cs) →
      incomplete_item fmt curv_scales (some cs) = none := by
    intro cs hcs
    have : scales_to_compute fmt curv_scales cs = [] := by
      rw [scales_to_compute, List.filter_eq_nil_iff]
      intro s hs
      simpa using hcs s hs
    simp [incomplete_item, this]
  have hempty : block_curvature_incomplete fmt curv_scales store = [] := by
    rw [block_curvature_incomplete, List.filterMap_eq_nil_iff]
    intro item hitem
    rcases hall item hitem with ⟨cs, hcs, hfull⟩
    rw [hcs, hnone cs hfull]
    rfl
  refine ⟨?_, hnone, hempty, ?_⟩
  · rcases hmiss with ⟨s, hs, hsm⟩
    have hne : ¬ (scales_to_compute fmt curv_scales computed).isEmpty = true := by
      rw [List.isEmpty_iff, scales_to_compute, List.filter_eq_nil_iff]
      intro hnil
      have h2 := hnil s hs
      simp only [decide_eq_true_eq, not_not] at h2
      exact hsm h2
    show (if (scales_to_compute fmt curv_scales computed).isEmpty then none
        else some (scales_to_compute fmt curv_scales computed)) =
      some (curv_scales.filter (fun s => ¬ fmt s ∈ computed))
    rw [if_neg hne, scales_to_compute]
  · intro compute
    rw [block_curvature_run, hempty]
    rfl

/-- Witness for C6 with configured scales `["0.020", "0.050"]` (as their
`'%.3f'` key strings, `fmt = id`): an item store holding only `"0.020"`
schedules exactly `["0.050"]`, and a universe whose single item holds both
scales is complete with no compute invocation. -/
theorem multiscale_completeness_witness :
    incomplete_item (fun s => s) ["0.020", "0.050"] (some ["0.020"]) =
      some (["0.020", "0.050"].filter (fun s => ¬ s ∈ ["0.020"])) ∧
    (∀ cs, (∀ s ∈ ["0.020", "0.050"], s ∈ cs) →
      incomplete_item (fun s : String => s) ["0.020", "0.050"] (some cs) = none) ∧
    block_curvature_incomplete (fun s => s) ["0.020", "0.050"]
      [("img1", some ["0.020", "0.050"])] = [] ∧
    (∀ compute : String × List String → ℕ,
      block_curvature_run compute (fun s => s) ["0.020", "0.050"]
        [("img1", some ["0.020", "0.050"])] = []) :=
  multiscale_completeness (fun s => s) ["0.020", "0.050"] ["0.020"]
    [("img1", some ["0.020", "0.050"])] (by decide) (by decide)

/-! ## GPU-bound batch loop (C8)

`Localization.run` (src/run_luigi.py, lines 296-311) and `Segmentation.run`
(lines 447-461), identically:

    to_process = self.get_incomplete()
    # we don't parallelize this function because it uses the gpu
    num_batches = (len(to_process) + self.batch_size - 1) / self.batch_size
    for i in ... range(num_batches) ...:
        idx_range = range(i * self.batch_size,
                          min((i + 1) * self.batch_size, len(to_process)))
        X_batch = np.empty((len(idx_range), 3, height, width), ...)

Python 2 `/` on ints is floor division, so `num_batches` is the ceiling of
`len / batch_size`.  Note the batch arrays are allocated with first dimension
`len(idx_range)` — the final partial batch is NOT zero-padded to
`batch_size`. -/

/-- `num_batches = (len(to_process) + batch_size - 1) / batch_size`. -/
def num_batches (n batch_size : ℕ) : ℕ := (n + batch_size - 1) / batch_size

/-- `idx_range = range(i * batch_size, min((i + 1) * batch_size, n))`. -/
def batch_idx_range (n batch_size i : ℕ) : List ℕ :=
  List.range' (i * batch_size) (min ((i + 1) * batch_size) n - i * batch_size)

/-- The sequence of index batches that the serial loop feeds to the GPU, in
loop order. -/
def batch_schedule (n batch_size : ℕ) : List (List ℕ) :=
  (List.range (num_batches n batch_size)).map (batch_idx_range n batch_size)

/-- Helper: a batch index is in range exactly when its batch starts before
the end of the item list. -/
theorem lt_num_batches_iff (n b i : ℕ) (hb : 0 < b) :
    i < num_batches n b ↔ i * b < n := by
  rw [num_batches]
  constructor
  · intro h
    have h1 : i + 1 ≤ (n + b - 1) / b := h
    have h2 : (i + 1) * b ≤ n + b - 1 := (Nat.le_div_iff_mul_le hb).mp h1
    have h3 : (i + 1) * b = i * b + b := by ring
    omega
  · intro h
    have h2 : (i + 1) * b ≤ n + b - 1 := by
      have h3 : (i + 1) * b = i * b + b := by ring
      omega
    exact (Nat.le_div_iff_mul_le hb).mpr h2

/-- C8 (amended): the incomplete items are processed in loop order in batches
of exactly `batch_size` except the final one; the batches jointly cover
exactly the item indices `0 .. n-1`; and the final batch has the remainder
size `n - (num_batches - 1) * batch_size`, a value in `[1, batch_size]` — it
is processed at that smaller size, not zero-padded up to `batch_size` (see
the counterexample). -/
theorem batch_schedule_structure (n b : ℕ) (hb : 0 < b) (hn : 0 < n) :
    (∀ i, i + 1 < num_batches n b →
      (batch_schedule n b).getD i [] = List.range' (i * b) b) ∧
    (∀ j, (∃ r ∈ batch_schedule n b, j ∈ r) ↔ j < n) ∧
    (((batch_schedule n b).getD (num_batches n b - 1) []).length =
        n - (num_batches n b - 1) * b ∧
      0 < n - (num_batches n b - 1) * b ∧ n - (num_batches n b - 1) * b ≤ b) := by
  have hm : 0 < num_batches n b := by
    rcases Nat.eq_zero_or_pos (num_batches n b) with h0 | h
    · exfalso
      have := (lt_num_batches_iff n b 0 hb).mpr (by simpa using hn)
      omega
    · exact h
  have hgetD : ∀ i, i < num_batches n b →
      (batch_schedule n b).getD i [] = batch_idx_range n b i := by
    intro i hi
    rw [batch_schedule]
    rw [List.getD_eq_getElem _ _ (by simpa using hi)]
    simp
  refine ⟨?_, ?_, ?_⟩
  · intro i hi
    have hi' : i < num_batches n b := by omega
    have hlt : (i + 1) * b < n := (lt_num_batches_iff n b (i + 1) hb).mp hi
    rw [hgetD i hi', batch_idx_range]
    congr 1
    have h3 : (i + 1) * b = i * b + b := by ring
    omega
  · intro j
    constructor
    · rintro ⟨r, hr, hjr⟩
      rcases List.mem_map.mp hr with ⟨i, hi, rfl⟩
      rw [batch_idx_range] at hjr
      rcases List.mem_range'_1.mp hjr with ⟨_, hj2⟩
      omega
    · intro hj
      refine ⟨batch_idx_range n b (j / b), ?_, ?_⟩
      · rw [batch_schedule]
        refine List.mem_map.mpr ⟨j / b, List.mem_range.mpr ?_, rfl⟩
        rw [lt_num_batches_iff n b _ hb]
        have := Nat.div_mul_le_self j b
        omega
      · rw [batch_idx_range]
        have h1 : j / b * b ≤ j := Nat.div_mul_le_self j b
        have hmod := Nat.div_add_mod j b
        have hmlt : j % b < b := Nat.mod_lt j hb
        have h3 : (j / b + 1) * b = j / b * b + b := by ring
        have hcomm : j / b * b = b * (j / b) := Nat.mul_comm _ _
        have hlt2 : j < (j / b + 1) * b := by omega
        have hminlt : j < min ((j / b + 1) * b) n := lt_min hlt2 hj
        have hminge : j / b * b ≤ min ((j / b + 1) * b) n :=
          le_min (by omega) (by omega)
        refine List.mem_range'_1.mpr ⟨h1, ?_⟩
        omega
  · have hlast : num_batches n b - 1 < num_batches n b := by omega
    have hstart : (num_batches n b - 1) * b < n :=
      (lt_num_batches_iff n b _ hb).mp hlast
    have hceil : n ≤ num_batches n b * b := by
      by_contra hcon
      push_neg at hcon
      have := (lt_num_batches_iff n b (num_batches n b) hb).mpr hcon
      omega
    rw [hgetD _ hlast, batch_idx_range, List.length_range']
    have h4 : num_batches n b - 1 + 1 = num_batches n b := by omega
    rw [h4]
    have hminn : min (num_batches n b * b) n = n := min_eq_right hceil
    rw [hminn]
    have hsucc2 : num_batches n b * b = (num_batches n b - 1) * b + b := by
      conv_lhs => rw [← h4]
      ring
    exact ⟨rfl, by omega, by omega⟩

/-- Witness for C8's amended theorem at `n = 5`, `b = 2` (batches
`[0,1], [2,3], [4]`). -/
theorem batch_schedule_structure_witness :
    (∀ i, i + 1 < num_batches 5 2 →
      (batch_schedule 5 2).getD i [] = List.range' (i * 2) 2) ∧
    (∀ j, (∃ r ∈ batch_schedule 5 2, j ∈ r) ↔ j < 5) ∧
    (((batch_schedule 5 2).getD (num_batches 5 2 - 1) []).length =
        5 - (num_batches 5 2 - 1) * 2 ∧
      0 < 5 - (num_batches 5 2 - 1) * 2 ∧ 5 - (num_batches 5 2 - 1) * 2 ≤ 2) :=
  batch_schedule_structure 5 2 (by decide) (by decide)

/-- Counterexample for C8 as stated: with 5 incomplete items and batch size
2, the loop runs 3 batches whose array sizes are `[2, 2, 1]` — the final
partial batch is processed at size 1, not zero-padded to the full batch
size 2. -/
theorem final_batch_not_zero_padded :
    num_batches 5 2 = 3 ∧
    (batch_schedule 5 2).map List.length = [2, 2, 1] ∧
    ([2, 2, 1] : List ℕ) ≠ [2, 2, 2] := by
  decide

/-! ## Artifact identity under configuration change (C9)

`TimeWarpingId` declares the parameters `window` (default 8), `curv_length`
(default 128), `cost_func`, `spatial_weights`, and inherits `dataset`,
`curv_scales` and `num_db_encounters`; `TimeWarpingId.output()` (src/
run_luigi.py, lines 1370-1397) stores each query encounter's result at

    join('data', dataset, 'TimeWarpingId',
         'weighted' if spatial_weights else 'uniform',
         cost_func, ','.join('%.3f' % s for s in curv_scales),
         str(num_db_encounters), qind, qenc + '.pickle')

`curv_scales` is carried as its already-`'%.3f'`-formatted key strings. -/

/-- The configuration surface of the `TimeWarpingId` stage. -/
structure TimeWarpingIdConfig where
  dataset : String
  window : Int
  curv_length : Int
  cost_func : String
  spatial_weights : Bool
  curv_scales : List String
  num_db_encounters : Int
deriving DecidableEq

/-- The output directory components of `TimeWarpingId.output()`. -/
def timeWarpingIdOutdir (c : TimeWarpingIdConfig) : List String :=
  ["data", c.dataset, "TimeWarpingId",
   if c.spatial_weights then "weighted" else "uniform",
   c.cost_func,
   String.intercalate "," c.curv_scales,
   toString c.num_db_encounters]

/-- The full path components of one query encounter's output artifact. -/
def timeWarpingIdTargetPath (c : TimeWarpingIdConfig) (qind qenc : String) :
    List String :=
  timeWarpingIdOutdir c ++ [qind, qenc ++ ".pickle"]

/-- C9 is violated by the code: two `TimeWarpingId` configurations that agree
on every parameter except the DTW band half-width `window` (8 vs. 16) and the
resample length `curv_length` (128 vs. 64) produce the very same artifact
path for the same query encounter, so the second run's completeness check
silently accepts (and reuses) the artifacts computed under the first
configuration. -/
theorem window_curv_length_missing_from_artifact_path :
    (TimeWarpingIdConfig.mk "sdrp" 8 128 "dtw" false ["0.110", "0.160"] 10).window ≠
      (TimeWarpingIdConfig.mk "sdrp" 16 64 "dtw" false ["0.110", "0.160"] 10).window ∧
    (TimeWarpingIdConfig.mk "sdrp" 8 128 "dtw" false ["0.110", "0.160"] 10).curv_length ≠
      (TimeWarpingIdConfig.mk "sdrp" 16 64 "dtw" false ["0.110", "0.160"] 10).curv_length ∧
    timeWarpingIdTargetPath
        (TimeWarpingIdConfig.mk "sdrp" 8 128 "dtw" false ["0.110", "0.160"] 10) "F1" "E1" =
      timeWarpingIdTargetPath
        (TimeWarpingIdConfig.mk "sdrp" 16 64 "dtw" false ["0.110", "0.160"] 10) "F1" "E1" :=
  ⟨by decide, by decide, rfl⟩

end CurvRank
